import Mathlib

/-!
Verification of the no-std-async-experiments scheduler.

Shallow embedding of the two crates that form the core:

* `src/cortex-m-signal/src/lib.rs`: a 32-bit signal register (`static SIGNALS: AtomicUsize`
  on a 32-bit Cortex-M target), with `Signal::set` (bit-band alias write that sets one bit),
  `Signals::read` (`swap(0)`, returning the snapshot) and the `Iterator` instance that drains
  a snapshot highest-bit-first.  The register word is embedded as a `Nat` below `2 ^ 32`.
* `src/generator-executor/src/lib.rs` and `src/futures-executor/src/lib.rs`: two executors
  with identical scheduling logic (the spec describes them as one design with a
  task-representation axis).  Both keep an 8-entry task table, an 8-entry
  `FnvIndexMap<Id, u8>` routing signal ids to task indexes, and an 8-slot FIFO ready queue.
  The embedding models a task as its yield function `Nat → Nat` (the id yielded at the k-th
  resumption) paired with a resume counter, the map as an association list with capacity 8
  (insert replaces in place when the key is present, appends when there is room, and returns
  the rejected pair when full, as heapless `IndexMap::insert` does), and the queue as a list
  (enqueue at the back, dequeue at the front).
-/

/-- Width of the shared register: `usize` is 32 bits on the Cortex-M targets this crate
supports, so the register holds bits 0..31. -/
def u32 : Nat := 2 ^ 32

/-- Signal::set (src/cortex-m-signal/src/lib.rs lines 170-176): the store of 1 through the
bit-band alias computed by `Signal::ptr` (lines 163-168) atomically sets bit `id` of the
SIGNALS word and touches no other bit; on the register word it acts as an OR with
`1 << id`.  The operation is total: it has no error path. -/
def Signal.set (reg id : Nat) : Nat := reg ||| (1 <<< id)

/-- Signals::read (lines 124-127): `SIGNALS.swap(0, Ordering::Relaxed)`.  First component:
the snapshot handed to the caller; second component: the register after the call. -/
def Signals.read (reg : Nat) : Nat × Nat := (reg, 0)

/-- Signals::is_empty (lines 130-132). -/
def Signals.is_empty (s : Nat) : Bool := s == 0

/-- Fuel-indexed bit length: `bitLength 32 s` is one more than the position of the highest
set bit of a 32-bit word `s` (and 0 for `s = 0`).  32 units of fuel are exact for words
below `2 ^ 32`. -/
def bitLength : Nat → Nat → Nat
  | 0, _ => 0
  | fuel + 1, s => if s = 0 then 0 else bitLength fuel (s / 2) + 1

/-- u32::leading_zeros as used on line 142 of the iterator. -/
def leading_zeros (s : Nat) : Nat := 32 - bitLength 32 s

/-- Iterator::next for Signals (lines 135-147): on a nonzero local copy, locate the highest
set bit (`31 - leading_zeros`), clear it in the local copy (`self.0 &= !(1 << pos)`, the
complement taken as an XOR against the all-ones 32-bit word), and yield its position.  The
returned pair is (yielded item, new iterator state); the shared register does not occur in
the state this function reads or writes. -/
def Signals.next (s : Nat) : Option Nat × Nat :=
  if s = 0 then (none, s)
  else (some (31 - leading_zeros s),
    s &&& ((u32 - 1) ^^^ (1 <<< (31 - leading_zeros s))))

/-- Repeated calls of Signals.next, collecting the yielded identifiers and returning the
final iterator state.  32 units of fuel are enough for any 32-bit word because every step
clears the highest remaining set bit. -/
def drainFull : Nat → Nat → List Nat × Nat
  | 0, s => ([], s)
  | fuel + 1, s =>
    match Signals.next s with
    | (none, _) => ([], s)
    | (some pos, s2) => (pos :: (drainFull fuel s2).1, (drainFull fuel s2).2)

/-- Identifiers yielded by iterating a snapshot to exhaustion. -/
def signalsList (s : Nat) : List Nat := (drainFull 32 s).1

/-- Folds Signal::set over a list of signal identifiers, as a sequence of interrupt
handlers would. -/
def setMany (reg : Nat) (ids : List Nat) : Nat := ids.foldl Signal.set reg

/-- Capacity of the task table, of the router map and of the ready queue:
`type SIZE = consts::U8` in both executor crates. -/
def taskCapacity : Nat := 8

/-- Key-membership test of the association-list model of heapless FnvIndexMap. -/
def mapContains {α : Type} (m : List (Nat × α)) (k : Nat) : Bool :=
  m.any (fun p => p.1 == k)

/-- Replacement of the value stored under an already-present key, keeping its slot. -/
def mapReplace {α : Type} : List (Nat × α) → Nat → α → List (Nat × α)
  | [], _, _ => []
  | (k2, v2) :: rest, k, v =>
    if k2 = k then (k, v) :: rest else (k2, v2) :: mapReplace rest k v

/-- heapless FnvIndexMap::insert: replaces in place when the key is present, appends when
there is spare capacity, and returns the rejected pair when the map is full. -/
def mapInsert {α : Type} (m : List (Nat × α)) (k : Nat) (v : α) :
    Except (Nat × α) (List (Nat × α)) :=
  if mapContains m k then .ok (mapReplace m k v)
  else if m.length < taskCapacity then .ok (m ++ [(k, v)])
  else .error (k, v)

/-- heapless FnvIndexMap::remove: removes and returns the value stored under the key,
leaving the map unchanged when the key is absent. -/
def mapRemove {α : Type} : List (Nat × α) → Nat → Option α × List (Nat × α)
  | [], _ => (none, [])
  | (k2, v) :: rest, k =>
    if k2 = k then (some v, rest)
    else ((mapRemove rest k).1, (k2, v) :: (mapRemove rest k).2)

/-- Router::route (src/futures-executor/src/lib.rs lines 41-44):
`self.wakers.borrow_mut().insert(signal, waker).ok();` performs the insertion and discards
the insertion result, so the caller receives nothing; the generator executor
(src/generator-executor/src/lib.rs lines 57-60) performs the same insertion and declares
the error case unreachable.  In both crates a full-map insertion of a fresh id leaves the
map unchanged and reports nothing. -/
def Router.route {α : Type} (m : List (Nat × α)) (signal : Nat) (w : α) :
    List (Nat × α) :=
  match mapInsert m signal w with
  | .ok m2 => m2
  | .error _ => m

/-- Router::wake (src/futures-executor/src/lib.rs lines 46-51) and the
`self.router.remove(&id)` of the generator executor (line 77): removes and returns the
continuation registered for the signal. -/
def Router.wake {α : Type} (m : List (Nat × α)) (signal : Nat) :
    Option α × List (Nat × α) :=
  mapRemove m signal

/-- Modelled from the spec: section 7 names `RouteCapacityExceeded` as the park-time error
"reported to caller of `route`" when the Router mapping is full.  No such error type exists
in the source; this type and `Router.routeSpec` below exist only to state what the spec
demands, for comparison with `Router.route` above. -/
inductive RouteError where
  | RouteCapacityExceeded
deriving DecidableEq

/-- Modelled from the spec: route as the spec's error-handling section describes it,
reporting `RouteCapacityExceeded` to the caller when the mapping is full instead of
discarding the rejection. -/
def Router.routeSpec {α : Type} (m : List (Nat × α)) (signal : Nat) (w : α) :
    Except RouteError (List (Nat × α)) :=
  match mapInsert m signal w with
  | .ok m2 => .ok m2
  | .error _ => .error .RouteCapacityExceeded

/-- A task.  The generator executor stores `&mut Generator<Yield = Id, Return = !>`; a task
never returns and its k-th resumption yields the signal id it then parks on.  The embedding
of such a resumable computation is its yield function; the resume counter (the suspended
state) lives next to it in the task table. -/
abbrev GTask := Nat → Nat

/-- The executor state shared by both crates: the task table (yield function and resume
counter per task), the router map from signal id to task index, and the FIFO ready queue of
task indexes (front = next to dequeue). -/
structure Executor where
  generators : List (GTask × Nat)
  router : List (Nat × Nat)
  ready : List Nat

def Executor.new : Executor := ⟨[], [], []⟩

/-- Executor::spawn (generator executor lines 38-47, futures executor lines 110-129): read
the next index as the current table length, push the task (an error return when the table
is full, before any other state is touched), then enqueue the new index.  The pair is
(result reported to the caller, executor state after the call). -/
def Executor.spawn (e : Executor) (g : GTask) : Except Unit Unit × Executor :=
  if e.generators.length < taskCapacity then
    (.ok (), { e with generators := e.generators ++ [(g, 0)],
                      ready := e.ready ++ [e.generators.length] })
  else (.error (), e)

/-- Spawns each task of a list in order, collecting every spawn's reported result. -/
def spawnAll (e : Executor) : List GTask → List (Except Unit Unit) × Executor
  | [] => ([], e)
  | g :: gs =>
    ((e.spawn g).1 :: (spawnAll (e.spawn g).2 gs).1, (spawnAll (e.spawn g).2 gs).2)

/-- One resumption inside the dispatch loop (generator executor lines 52-62): resume task
`i`, which yields the id it parks on, and insert that registration into the router.  The
source reads the table with `get_unchecked_mut`; an out-of-range index is modeled as a
no-op and proved unreachable (claim C10).  The futures executor does the same work through
`Future::poll` and `Router::route`. -/
def resumeTask (e : Executor) (i : Nat) : Executor :=
  match e.generators.get? i with
  | none => e
  | some gn =>
    { e with generators := e.generators.set i (gn.1, gn.2 + 1),
             router := Router.route e.router (gn.1 gn.2) i }

/-- The while-let dispatch loop over an explicit list of pending indexes.  Faithful to
`while let Some(i) = self.ready.dequeue()` because resumeTask never touches the queue. -/
def dispatchList (e : Executor) : List Nat → Executor
  | [] => e
  | i :: rest => dispatchList (resumeTask e i) rest

/-- The dispatch phase of Executor::run: drain the ready queue in FIFO order, resuming each
dequeued task once. -/
def dispatch (e : Executor) : Executor := dispatchList { e with ready := [] } e.ready

/-- The wake step for a single signal id (generator executor lines 76-83, futures executor
lines 161-163 through the waker's wake_local): remove the registration for the id, if any, and
enqueue the registered task index.  The source enqueue is `enqueue_unchecked`; the queue is
modeled as unbounded and the capacity bound is proved (claim C10). -/
def wakeOne (e : Executor) (id : Nat) : Executor :=
  match Router.wake e.router id with
  | (some i, m) => { e with router := m, ready := e.ready ++ [i] }
  | (none, m) => { e with router := m }

/-- The wake loop `for id in signals { .. }` over the ids yielded by a snapshot. -/
def wakePhase (e : Executor) (ids : List Nat) : Executor := ids.foldl wakeOne e

/-- One iteration of Executor::run entered at the top of the loop: dispatch every ready
task, then read the register and wake.  `reg` is the register word at the moment the
read succeeds (the read loop spins on `asm::wfe()` until it is nonzero, and interrupt
handlers may have set any combination of bits by then). -/
def runIter (e : Executor) (reg : Nat) : Executor :=
  wakePhase (dispatch e) (signalsList (Signals.read reg).1)

/-- One iteration of Executor::run observed from the low-power wait point: the successful
signal read, the wake loop, then the dispatch loop of the next pass.  This is the same loop
body as runIter, rotated to start where the processor wakes. -/
def waitIter (e : Executor) (reg : Nat) : Executor :=
  dispatch (wakePhase e (signalsList (Signals.read reg).1))

/-- Task indexes referenced by the scheduler state: ready-queue entries and router values. -/
def refsOf (e : Executor) : List Nat := e.ready ++ e.router.map Prod.snd

/-- Scheduler states reachable by the program: a sequence of spawns from a fresh executor,
followed by run-loop iterations.  The register word at each successful read is an arbitrary
nonzero 32-bit value: interrupt handlers may interleave `Signal::set` calls freely, and they
communicate with the loop only through that word. -/
inductive Reach : Executor → Prop where
  | spawned (gs : List GTask) : Reach (spawnAll Executor.new gs).2
  | step (e : Executor) (reg : Nat) :
      Reach e → reg < u32 → reg ≠ 0 → Reach (runIter e reg)

/-- Check mirroring dispatchList: true when every index dequeued during the dispatch loop
is in bounds for the task table, i.e. when the source's `get_unchecked_mut` never goes out
of range. -/
def dispatchListOk (e : Executor) : List Nat → Bool
  | [] => true
  | i :: rest =>
    decide (i < e.generators.length) && dispatchListOk (resumeTask e i) rest

def dispatchOk (e : Executor) : Bool := dispatchListOk { e with ready := [] } e.ready

/-- Check mirroring wakePhase: true when every enqueue of a woken task finds free capacity
in the 8-slot ready queue, i.e. when the source's `enqueue_unchecked` never overflows. -/
def wakeListOk (e : Executor) : List Nat → Bool
  | [] => true
  | id :: rest =>
    match Router.wake e.router id with
    | (some _, _) =>
      decide (e.ready.length < taskCapacity) && wakeListOk (wakeOne e id) rest
    | (none, _) => wakeListOk (wakeOne e id) rest

/-- Scheduler-state invariant: every referenced task index occurs at most once across the
ready queue and the router combined, every referenced index is in bounds for the task
table, router keys are distinct (it models a map), and the table is within capacity. -/
def SchedInv (e : Executor) : Prop :=
  (refsOf e).Nodup ∧ (∀ x ∈ refsOf e, x < e.generators.length) ∧
    (e.router.map Prod.fst).Nodup ∧ e.generators.length ≤ taskCapacity

/-- A task yielding the same signal id at every resumption, as both example applications
build (`yield A::id()` in a loop). -/
def constTask (a : Nat) : GTask := fun _ => a

/-- The two-task scenario state of the spec and of both example apps: task 0 spawned first
and parked on signal `a`, task 1 spawned second and parked on signal `b`, ready queue
empty.  Built by spawning both tasks and running the initial dispatch. -/
def parked (a b : Nat) : Executor :=
  dispatch ((((Executor.new).spawn (constTask a)).2).spawn (constTask b)).2

theorem bitLength_zero (fuel : Nat) : bitLength fuel 0 = 0 := by
  cases fuel <;> simp [bitLength]

theorem bitLength_spec : ∀ fuel s, 0 < s → s < 2 ^ fuel →
    0 < bitLength fuel s ∧ bitLength fuel s ≤ fuel ∧
      2 ^ (bitLength fuel s - 1) ≤ s ∧ s < 2 ^ bitLength fuel s := by
  intro fuel
  induction fuel with
  | zero =>
    intro s hs hlt
    simp only [pow_zero] at hlt
    omega
  | succ k ih =>
    intro s hs hlt
    have hne : ¬ s = 0 := by omega
    have hstep : bitLength (k + 1) s = bitLength k (s / 2) + 1 := by
      simp [bitLength, hne]
    by_cases h2 : s / 2 = 0
    · have hs1 : s = 1 := by omega
      subst hs1
      rw [hstep, h2, bitLength_zero]
      norm_num
    · have hp : (2 : Nat) ^ (k + 1) = 2 * 2 ^ k := by rw [pow_succ]; ring
      have hlt2 : s / 2 < 2 ^ k := by omega
      obtain ⟨ha, hb, hc, hd⟩ := ih (s / 2) (by omega) hlt2
      rw [hstep]
      refine ⟨by omega, by omega, ?_, ?_⟩
      · have he : (2 : Nat) ^ (bitLength k (s / 2) + 1 - 1)
            = 2 * 2 ^ (bitLength k (s / 2) - 1) := by
          have hx : bitLength k (s / 2) + 1 - 1 = (bitLength k (s / 2) - 1) + 1 := by omega
          rw [hx, pow_succ]; ring
        omega
      · have hf : (2 : Nat) ^ (bitLength k (s / 2) + 1)
            = 2 * 2 ^ (bitLength k (s / 2)) := by
          rw [pow_succ]; ring
        omega

theorem nextPos_spec (s : Nat) (hs : 0 < s) (hlt : s < u32) :
    2 ^ (31 - leading_zeros s) ≤ s ∧ s < 2 ^ (31 - leading_zeros s + 1) ∧
      31 - leading_zeros s < 32 := by
  have hlt2 : s < 2 ^ 32 := hlt
  obtain ⟨ha, hb, hc, hd⟩ := bitLength_spec 32 s hs hlt2
  unfold leading_zeros
  have h31 : 31 - (32 - bitLength 32 s) = bitLength 32 s - 1 := by omega
  rw [h31]
  have he : bitLength 32 s - 1 + 1 = bitLength 32 s := by omega
  rw [he]
  exact ⟨hc, hd, by omega⟩

theorem nextPos_eq (s p : Nat) (h1 : 2 ^ p ≤ s) (h2 : s < 2 ^ (p + 1)) (hp : p < 32) :
    31 - leading_zeros s = p := by
  have hs : 0 < s := lt_of_lt_of_le (pow_pos (by norm_num) p) h1
  have hlt : s < u32 := by
    have : (2 : Nat) ^ (p + 1) ≤ 2 ^ 32 := Nat.pow_le_pow_right (by norm_num) (by omega)
    have hx : s < 2 ^ 32 := lt_of_lt_of_le h2 this
    exact hx
  obtain ⟨ha, hb, hc⟩ := nextPos_spec s hs hlt
  have hd : 31 - leading_zeros s < p + 1 := by
    have := lt_of_le_of_lt ha h2
    exact (Nat.pow_lt_pow_iff_right (by norm_num)).mp this
  have he : p < 31 - leading_zeros s + 1 := by
    have := lt_of_le_of_lt h1 hb
    exact (Nat.pow_lt_pow_iff_right (by norm_num)).mp this
  omega

theorem and_mask_eq_mod (s p : Nat) (hp : p < 32) (hs : s < 2 ^ (p + 1)) :
    s &&& ((u32 - 1) ^^^ (1 <<< p)) = s % 2 ^ p := by
  apply Nat.eq_of_testBit_eq
  intro i
  have hu : u32 - 1 = 2 ^ 32 - 1 := rfl
  rw [Nat.testBit_and, Nat.testBit_xor, Nat.one_shiftLeft, hu,
    Nat.testBit_two_pow_sub_one, Nat.testBit_two_pow, Nat.testBit_mod_two_pow]
  rcases Nat.lt_trichotomy i p with h | h | h
  · have h32 : i < 32 := by omega
    have hne : p ≠ i := by omega
    simp [h, h32, hne]
  · subst h
    simp [hp]
  · have hip : ¬ i < p := by omega
    have hzero : s.testBit i = false := by
      have : s < 2 ^ i :=
        lt_of_lt_of_le hs (Nat.pow_le_pow_right (by norm_num) (by omega))
      exact Nat.testBit_lt_two_pow this
    by_cases h32 : i < 32
    · have hne : p ≠ i := by omega
      simp [hzero, hip, h32, hne]
    · simp [hzero, hip, h32]

theorem next_spec (s : Nat) (hs : 0 < s) (hlt : s < u32) :
    Signals.next s = (some (31 - leading_zeros s), s % 2 ^ (31 - leading_zeros s)) := by
  obtain ⟨h1, h2, h3⟩ := nextPos_spec s hs hlt
  unfold Signals.next
  rw [if_neg (by omega)]
  rw [and_mask_eq_mod s (31 - leading_zeros s) h3 h2]

theorem drainFull_zero (fuel : Nat) : drainFull fuel 0 = ([], 0) := by
  cases fuel with
  | zero => rfl
  | succ k => simp [drainFull, Signals.next]

theorem drainFull_step (fuel s : Nat) (hs : 0 < s) (hlt : s < u32) :
    drainFull (fuel + 1) s =
      ((31 - leading_zeros s) :: (drainFull fuel (s % 2 ^ (31 - leading_zeros s))).1,
        (drainFull fuel (s % 2 ^ (31 - leading_zeros s))).2) := by
  simp [drainFull, next_spec s hs hlt]

theorem testBit_of_between (s p : Nat) (h1 : 2 ^ p ≤ s) (h2 : s < 2 ^ (p + 1)) :
    s.testBit p = true := by
  rw [Nat.testBit_to_div_mod]
  have hd : s / 2 ^ p = 1 := by
    have hpow : (2 : Nat) ^ (p + 1) = 2 ^ p * 2 := by rw [pow_succ]
    have hpos : 0 < 2 ^ p := pow_pos (by norm_num) p
    have hlo : 1 * 2 ^ p ≤ s := by omega
    have hhi : s < (1 + 1) * 2 ^ p := by omega
    have := Nat.div_lt_iff_lt_mul hpos |>.mpr hhi
    have h1le := (Nat.le_div_iff_mul_le hpos).mpr hlo
    omega
  simp [hd]

theorem drainFull_spec : ∀ fuel s, fuel ≤ 32 → s < 2 ^ fuel →
    (∀ i, i ∈ (drainFull fuel s).1 ↔ s.testBit i = true) ∧
      (drainFull fuel s).1.Pairwise (fun x y => y < x) ∧
      (drainFull fuel s).2 = 0 := by
  intro fuel
  induction fuel with
  | zero =>
    intro s h32 hlt
    simp only [pow_zero] at hlt
    have hz : s = 0 := by omega
    subst hz
    simp [drainFull, Nat.zero_testBit]
  | succ k ih =>
    intro s h32 hlt
    by_cases hz : s = 0
    · subst hz
      simp [drainFull_zero, Nat.zero_testBit]
    · have hs : 0 < s := by omega
      have hltu : s < u32 :=
        lt_of_lt_of_le hlt (Nat.pow_le_pow_right (by norm_num) h32)
      obtain ⟨hlo, hhi, hp32⟩ := nextPos_spec s hs hltu
      set p := 31 - leading_zeros s with hpdef
      have hpk : p ≤ k := by
        have : (2 : Nat) ^ p < 2 ^ (k + 1) := lt_of_le_of_lt hlo hlt
        have := (Nat.pow_lt_pow_iff_right (a := 2) (by norm_num)).mp this
        omega
      have hmlt : s % 2 ^ p < 2 ^ k := by
        have h1 : s % 2 ^ p < 2 ^ p := Nat.mod_lt _ (pow_pos (by norm_num) p)
        exact lt_of_lt_of_le h1 (Nat.pow_le_pow_right (by norm_num) hpk)
      obtain ⟨ihm, ihp, ihf⟩ := ih (s % 2 ^ p) (by omega) hmlt
      rw [drainFull_step k s hs hltu]
      refine ⟨?_, ?_, ihf⟩
      · intro i
        simp only [List.mem_cons, ihm, Nat.testBit_mod_two_pow]
        constructor
        · rintro (h | hmem)
          · rw [h]
            exact testBit_of_between s p hlo hhi
          · exact (Bool.and_eq_true _ _).mp hmem |>.2
        · intro hbit
          rcases Nat.lt_trichotomy i p with h | h | h
          · right
            simp [h, hbit]
          · left; omega
          · exfalso
            have : s < 2 ^ i :=
              lt_of_lt_of_le hhi (Nat.pow_le_pow_right (by norm_num) (by omega))
            rw [Nat.testBit_lt_two_pow this] at hbit
            exact Bool.false_ne_true hbit
      · rw [List.pairwise_cons]
        refine ⟨?_, ihp⟩
        intro x hx
        have := (ihm x).mp hx
        rw [Nat.testBit_mod_two_pow] at this
        exact of_decide_eq_true ((Bool.and_eq_true _ _).mp this).1

theorem signalsList_spec (s : Nat) (hlt : s < u32) :
    (∀ i, i ∈ signalsList s ↔ s.testBit i = true) ∧
      (signalsList s).Pairwise (fun x y => y < x) ∧ (drainFull 32 s).2 = 0 :=
  drainFull_spec 32 s (le_refl 32) hlt

theorem mapContains_iff {α : Type} (m : List (Nat × α)) (k : Nat) :
    mapContains m k = true ↔ k ∈ m.map Prod.fst := by
  simp only [mapContains, List.any_eq_true, beq_iff_eq, List.mem_map]

theorem mapRemove_of_not_contains {α : Type} :
    ∀ (m : List (Nat × α)) (k : Nat), mapContains m k = false → mapRemove m k = (none, m) := by
  intro m
  induction m with
  | nil => intro k _; rfl
  | cons p rest ih =>
    intro k hc
    obtain ⟨k2, v⟩ := p
    simp [mapContains, List.any_cons, beq_iff_eq] at hc
    rw [mapRemove, if_neg hc.1, ih k (by simp [mapContains]; exact hc.2)]

theorem mapRemove_append_fresh {α : Type} :
    ∀ (m : List (Nat × α)) (k : Nat) (v : α), mapContains m k = false →
      mapRemove (m ++ [(k, v)]) k = (some v, m) := by
  intro m
  induction m with
  | nil => intro k v _; simp [mapRemove]
  | cons p rest ih =>
    intro k v hc
    obtain ⟨k2, v2⟩ := p
    simp [mapContains, List.any_cons, beq_iff_eq] at hc
    rw [List.cons_append, mapRemove, if_neg hc.1,
      ih k v (by simp [mapContains]; exact hc.2)]

theorem mapContains_append_self {α : Type} :
    ∀ (m : List (Nat × α)) (k : Nat) (v : α), mapContains (m ++ [(k, v)]) k = true := by
  intro m k v
  rw [mapContains_iff]
  simp

theorem mapContains_replace {α : Type} :
    ∀ (m : List (Nat × α)) (k : Nat) (v : α) (k2 : Nat),
      mapContains (mapReplace m k v) k2 = mapContains m k2 := by
  intro m
  induction m with
  | nil => intro k v k2; rfl
  | cons p rest ih =>
    intro k v k2
    obtain ⟨ka, va⟩ := p
    by_cases h : ka = k
    · subst h
      rw [mapReplace, if_pos rfl]
      simp [mapContains, List.any_cons]
    · rw [mapReplace, if_neg h]
      have hrec := ih k v k2
      simp only [mapContains, List.any_cons] at hrec ⊢
      rw [hrec]

theorem mapReplace_replace {α : Type} :
    ∀ (m : List (Nat × α)) (k : Nat) (v1 v2 : α),
      mapReplace (mapReplace m k v1) k v2 = mapReplace m k v2 := by
  intro m
  induction m with
  | nil => intro k v1 v2; rfl
  | cons p rest ih =>
    intro k v1 v2
    obtain ⟨ka, va⟩ := p
    by_cases h : ka = k
    · subst h
      rw [mapReplace, if_pos rfl, mapReplace, if_pos rfl, mapReplace, if_pos rfl]
    · rw [mapReplace, if_neg h, mapReplace, if_neg h, mapReplace, if_neg h, ih]

theorem mapReplace_append_fresh {α : Type} :
    ∀ (m : List (Nat × α)) (k : Nat) (v v2 : α), mapContains m k = false →
      mapReplace (m ++ [(k, v)]) k v2 = m ++ [(k, v2)] := by
  intro m
  induction m with
  | nil => intro k v v2 _; simp [mapReplace]
  | cons p rest ih =>
    intro k v v2 hc
    obtain ⟨ka, va⟩ := p
    simp [mapContains, List.any_cons, beq_iff_eq] at hc
    rw [List.cons_append, mapReplace, if_neg hc.1,
      ih k v v2 (by simp [mapContains]; exact hc.2)]
    rfl

theorem mapRemove_replace {α : Type} :
    ∀ (m : List (Nat × α)) (k : Nat) (v : α),
      (m.map Prod.fst).Nodup → mapContains m k = true →
      mapRemove (mapReplace m k v) k = (some v, (mapRemove m k).2) := by
  intro m
  induction m with
  | nil => intro k v _ hc; simp [mapContains] at hc
  | cons p rest ih =>
    intro k v hn hc
    obtain ⟨ka, va⟩ := p
    rw [List.map_cons, List.nodup_cons] at hn
    by_cases h : ka = k
    · subst h
      rw [mapReplace, if_pos rfl, mapRemove, if_pos rfl, mapRemove, if_pos rfl]
    · simp [mapContains, List.any_cons, beq_iff_eq, h] at hc
      rw [mapReplace, if_neg h, mapRemove, if_neg h, mapRemove, if_neg h,
        ih k v hn.2 (by simp [mapContains]; exact hc)]

theorem mapRemove_not_contains_of_nodup {α : Type} :
    ∀ (m : List (Nat × α)) (k : Nat), (m.map Prod.fst).Nodup →
      mapContains (mapRemove m k).2 k = false := by
  intro m
  induction m with
  | nil => intro k _; rfl
  | cons p rest ih =>
    intro k hn
    obtain ⟨ka, va⟩ := p
    rw [List.map_cons, List.nodup_cons] at hn
    by_cases h : ka = k
    · subst h
      rw [mapRemove, if_pos rfl]
      have := hn.1
      rw [← Bool.not_eq_true, mapContains_iff]
      exact this
    · rw [mapRemove, if_neg h]
      simp [mapContains, List.any_cons, beq_iff_eq, h]
      have := ih k hn.2
      simpa [mapContains] using this

theorem mapRemove_none_eq {α : Type} :
    ∀ (m : List (Nat × α)) (k : Nat), (mapRemove m k).1 = none → (mapRemove m k).2 = m := by
  intro m
  induction m with
  | nil => intro k _; rfl
  | cons p rest ih =>
    intro k h1
    obtain ⟨k2, v⟩ := p
    by_cases h : k2 = k
    · rw [mapRemove, if_pos h] at h1
      simp at h1
    · rw [mapRemove, if_neg h] at h1 ⊢
      simp only at h1 ⊢
      rw [ih k h1]

theorem mapRemove_some_perm {α : Type} :
    ∀ (m : List (Nat × α)) (k : Nat) (v : α), (mapRemove m k).1 = some v →
      (m.map Prod.snd).Perm (v :: ((mapRemove m k).2.map Prod.snd)) ∧
        (m.map Prod.fst).Perm (k :: ((mapRemove m k).2.map Prod.fst)) := by
  intro m
  induction m with
  | nil => intro k v h; simp [mapRemove] at h
  | cons p rest ih =>
    intro k v h1
    obtain ⟨k2, v2⟩ := p
    by_cases h : k2 = k
    · subst h
      rw [mapRemove, if_pos rfl] at h1 ⊢
      simp only [Option.some.injEq] at h1
      subst h1
      exact ⟨List.Perm.refl _, List.Perm.refl _⟩
    · rw [mapRemove, if_neg h] at h1 ⊢
      simp only at h1 ⊢
      obtain ⟨hv, hk⟩ := ih k v h1
      constructor
      · refine List.Perm.trans (List.Perm.cons v2 hv) ?_
        exact List.Perm.swap v v2 _
      · refine List.Perm.trans (List.Perm.cons k2 hk) ?_
        exact List.Perm.swap k k2 _

theorem mapRemove_first {α : Type} :
    ∀ (m : List (Nat × α)) (k : Nat) (v : α), (k, v) ∈ m → (m.map Prod.fst).Nodup →
      (mapRemove m k).1 = some v := by
  intro m
  induction m with
  | nil => intro k v h _; simp at h
  | cons p rest ih =>
    intro k v hm hn
    obtain ⟨k2, v2⟩ := p
    rw [List.map_cons, List.nodup_cons] at hn
    rcases List.mem_cons.mp hm with h | h
    · rw [Prod.mk.injEq] at h
      obtain ⟨hk, hv⟩ := h
      rw [mapRemove, if_pos hk.symm]
      simp [hv]
    · by_cases he : k2 = k
      · subst he
        exfalso
        exact hn.1 (List.mem_map.mpr ⟨(k2, v), h, rfl⟩)
      · rw [mapRemove, if_neg he]
        simp only
        exact ih k v h hn.2

theorem mapRemove_keep {α : Type} :
    ∀ (m : List (Nat × α)) (k k2 : Nat) (v : α), (k2, v) ∈ m → k2 ≠ k →
      (k2, v) ∈ (mapRemove m k).2 := by
  intro m
  induction m with
  | nil => intro k k2 v h _; simp at h
  | cons p rest ih =>
    intro k k2 v hm hne
    obtain ⟨ka, va⟩ := p
    rcases List.mem_cons.mp hm with h | h
    · rw [Prod.mk.injEq] at h
      obtain ⟨hk, hv⟩ := h
      have hka : ¬ ka = k := by omega
      rw [mapRemove, if_neg hka]
      simp [hk, hv]
    · by_cases he : ka = k
      · rw [mapRemove, if_pos he]
        exact h
      · rw [mapRemove, if_neg he]
        exact List.mem_cons.mpr (Or.inr (ih k k2 v h hne))

theorem mapRemove_fst_nodup {α : Type} (m : List (Nat × α)) (k : Nat)
    (hn : (m.map Prod.fst).Nodup) : ((mapRemove m k).2.map Prod.fst).Nodup := by
  cases h : (mapRemove m k).1 with
  | none => rw [mapRemove_none_eq m k h]; exact hn
  | some v =>
    have hp := (mapRemove_some_perm m k v h).2
    have := hp.nodup hn
    exact (List.nodup_cons.mp this).2

theorem route_eq_replace {α : Type} (m : List (Nat × α)) (k : Nat) (v : α)
    (hc : mapContains m k = true) : Router.route m k v = mapReplace m k v := by
  unfold Router.route mapInsert
  rw [if_pos hc]

theorem route_eq_append {α : Type} (m : List (Nat × α)) (k : Nat) (v : α)
    (hc : mapContains m k = false) (hl : m.length < taskCapacity) :
    Router.route m k v = m ++ [(k, v)] := by
  unfold Router.route mapInsert
  rw [hc]
  simp [hl]

theorem route_eq_self {α : Type} (m : List (Nat × α)) (k : Nat) (v : α)
    (hc : mapContains m k = false) (hl : ¬ m.length < taskCapacity) :
    Router.route m k v = m := by
  unfold Router.route mapInsert
  rw [hc]
  simp [hl]

theorem mapReplace_fst {α : Type} :
    ∀ (m : List (Nat × α)) (k : Nat) (v : α),
      (mapReplace m k v).map Prod.fst = m.map Prod.fst := by
  intro m
  induction m with
  | nil => intro k v; rfl
  | cons p rest ih =>
    intro k v
    obtain ⟨ka, va⟩ := p
    by_cases h : ka = k
    · subst h
      rw [mapReplace, if_pos rfl]
      simp
    · rw [mapReplace, if_neg h]
      simp [ih]

theorem mapReplace_snd_subset {α : Type} :
    ∀ (m : List (Nat × α)) (k : Nat) (v : α) (x : α),
      x ∈ (mapReplace m k v).map Prod.snd → x = v ∨ x ∈ m.map Prod.snd := by
  intro m
  induction m with
  | nil => intro k v x h; simp [mapReplace] at h
  | cons p rest ih =>
    intro k v x hx
    obtain ⟨ka, va⟩ := p
    by_cases h : ka = k
    · subst h
      rw [mapReplace, if_pos rfl] at hx
      rw [List.map_cons, List.mem_cons] at hx
      rcases hx with h1 | h1
      · exact Or.inl h1
      · right
        rw [List.map_cons, List.mem_cons]
        exact Or.inr h1
    · rw [mapReplace, if_neg h] at hx
      rw [List.map_cons, List.mem_cons] at hx
      rcases hx with h1 | h1
      · right
        rw [List.map_cons, List.mem_cons]
        exact Or.inl h1
      · rcases ih k v x h1 with h2 | h2
        · exact Or.inl h2
        · right
          rw [List.map_cons, List.mem_cons]
          exact Or.inr h2

theorem mapReplace_snd_nodup {α : Type} :
    ∀ (m : List (Nat × α)) (k : Nat) (v : α),
      (m.map Prod.snd).Nodup → v ∉ m.map Prod.snd →
      ((mapReplace m k v).map Prod.snd).Nodup := by
  intro m
  induction m with
  | nil => intro k v _ _; simp [mapReplace]
  | cons p rest ih =>
    intro k v hn hv
    obtain ⟨ka, va⟩ := p
    rw [List.map_cons, List.nodup_cons] at hn
    simp only [List.map_cons, List.mem_cons] at hv
    push_neg at hv
    by_cases h : ka = k
    · subst h
      rw [mapReplace, if_pos rfl]
      rw [List.map_cons, List.nodup_cons]
      exact ⟨hv.2, hn.2⟩
    · rw [mapReplace, if_neg h]
      rw [List.map_cons, List.nodup_cons]
      constructor
      · intro hmem
        rcases mapReplace_snd_subset rest k v va hmem with h1 | h1
        · exact hv.1 h1.symm
        · exact hn.1 h1
      · exact ih k v hn.2 hv.2

theorem route_fst_nodup {α : Type} (m : List (Nat × α)) (k : Nat) (v : α)
    (hn : (m.map Prod.fst).Nodup) : ((Router.route m k v).map Prod.fst).Nodup := by
  by_cases hc : mapContains m k
  · rw [route_eq_replace m k v hc, mapReplace_fst]
    exact hn
  · by_cases hl : m.length < taskCapacity
    · rw [route_eq_append m k v (by simpa using hc) hl]
      rw [List.map_append]
      rw [List.nodup_append]
      refine ⟨hn, by simp, ?_⟩
      intro x hx
      simp only [List.map_cons, List.map_nil, List.mem_singleton]
      intro hxx
      subst hxx
      exact hc ((mapContains_iff m x).mpr hx)
    · rw [route_eq_self m k v (by simpa using hc) hl]
      exact hn

theorem route_snd_subset {α : Type} (m : List (Nat × α)) (k : Nat) (v : α) (x : α)
    (hx : x ∈ (Router.route m k v).map Prod.snd) : x = v ∨ x ∈ m.map Prod.snd := by
  by_cases hc : mapContains m k
  · rw [route_eq_replace m k v hc] at hx
    exact mapReplace_snd_subset m k v x hx
  · by_cases hl : m.length < taskCapacity
    · rw [route_eq_append m k v (by simpa using hc) hl, List.map_append] at hx
      rcases List.mem_append.mp hx with h | h
      · exact Or.inr h
      · simp at h
        exact Or.inl h
    · rw [route_eq_self m k v (by simpa using hc) hl] at hx
      exact Or.inr hx

theorem route_snd_nodup {α : Type} (m : List (Nat × α)) (k : Nat) (v : α)
    (hn : (m.map Prod.snd).Nodup) (hv : v ∉ m.map Prod.snd) :
    ((Router.route m k v).map Prod.snd).Nodup := by
  by_cases hc : mapContains m k
  · rw [route_eq_replace m k v hc]
    exact mapReplace_snd_nodup m k v hn hv
  · by_cases hl : m.length < taskCapacity
    · rw [route_eq_append m k v (by simpa using hc) hl, List.map_append, List.nodup_append]
      refine ⟨hn, by simp, ?_⟩
      intro x hx
      simp only [List.map_cons, List.map_nil, List.mem_singleton]
      intro hxx
      subst hxx
      exact hv hx
    · rw [route_eq_self m k v (by simpa using hc) hl]
      exact hn

theorem testBit_ge (n i : Nat) (h : n.testBit i = true) : 2 ^ i ≤ n := by
  by_contra hlt
  rw [Nat.testBit_lt_two_pow (by omega)] at h
  exact Bool.false_ne_true h

theorem drainFull_pow (fuel a : Nat) (ha : a < 32) :
    drainFull (fuel + 1) (2 ^ a) = ([a], 0) := by
  have hs : 0 < 2 ^ a := pow_pos (by norm_num) a
  have hlt : (2 : Nat) ^ a < u32 := by
    show (2 : Nat) ^ a < 2 ^ 32
    exact (Nat.pow_lt_pow_iff_right (by norm_num)).mpr ha
  have hsucc : (2 : Nat) ^ a < 2 ^ (a + 1) :=
    (Nat.pow_lt_pow_iff_right (by norm_num)).mpr (by omega)
  have hpos := nextPos_eq (2 ^ a) a (le_refl _) hsucc ha
  rw [drainFull_step fuel (2 ^ a) hs hlt, hpos, Nat.mod_self, drainFull_zero]

theorem signalsList_pow (a : Nat) (ha : a < 32) : signalsList (2 ^ a) = [a] := by
  unfold signalsList
  rw [show (32 : Nat) = 31 + 1 from rfl, drainFull_pow 31 a ha]

theorem or_mod_pow (a b : Nat) (h : a < b) : (2 ^ a ||| 2 ^ b) % 2 ^ b = 2 ^ a := by
  apply Nat.eq_of_testBit_eq
  intro i
  rw [Nat.testBit_mod_two_pow, Nat.testBit_or, Nat.testBit_two_pow, Nat.testBit_two_pow]
  by_cases hia : a = i
  · subst hia
    simp [h]
  · by_cases hib : i < b
    · have hbi : ¬ b = i := by omega
      simp [hia, hbi, hib]
    · simp [hia, hib]

theorem signalsList_or (a b : Nat) (hab : a < b) (hb : b < 32) :
    signalsList (2 ^ a ||| 2 ^ b) = [b, a] := by
  have htb : (2 ^ a ||| 2 ^ b).testBit b = true := by
    rw [Nat.testBit_or, Nat.testBit_two_pow, Nat.testBit_two_pow]
    simp
  have hle : 2 ^ b ≤ (2 ^ a ||| 2 ^ b) := testBit_ge _ b htb
  have hs : 0 < (2 ^ a ||| 2 ^ b) := lt_of_lt_of_le (pow_pos (by norm_num) b) hle
  have hsucc : (2 ^ a ||| 2 ^ b) < 2 ^ (b + 1) := by
    apply Nat.or_lt_two_pow
    · exact (Nat.pow_lt_pow_iff_right (by norm_num)).mpr (by omega)
    · exact (Nat.pow_lt_pow_iff_right (by norm_num)).mpr (by omega)
  have hltu : (2 ^ a ||| 2 ^ b) < u32 := by
    show (2 ^ a ||| 2 ^ b) < 2 ^ 32
    apply Nat.or_lt_two_pow
    · exact (Nat.pow_lt_pow_iff_right (by norm_num)).mpr (by omega)
    · exact (Nat.pow_lt_pow_iff_right (by norm_num)).mpr (by omega)
  have hpos := nextPos_eq (2 ^ a ||| 2 ^ b) b hle hsucc hb
  unfold signalsList
  rw [show (32 : Nat) = 31 + 1 from rfl, drainFull_step 31 _ hs hltu, hpos,
    or_mod_pow a b hab, show (31 : Nat) = 30 + 1 from rfl, drainFull_pow 30 a (by omega)]

theorem set_eq_or_pow (reg id : Nat) : Signal.set reg id = reg ||| 2 ^ id := by
  rw [Signal.set, Nat.one_shiftLeft]

theorem set_testBit (reg id i : Nat) :
    (Signal.set reg id).testBit i = (reg.testBit i || decide (id = i)) := by
  rw [set_eq_or_pow, Nat.testBit_or, Nat.testBit_two_pow]

theorem setMany_mem_iff : ∀ (ids : List Nat) (r i : Nat),
    ((setMany r ids).testBit i = true ↔ (r.testBit i = true ∨ i ∈ ids)) := by
  intro ids
  induction ids with
  | nil => intro r i; simp [setMany]
  | cons id rest ih =>
    intro r i
    have hstep : setMany r (id :: rest) = setMany (Signal.set r id) rest := rfl
    rw [hstep, ih, set_testBit]
    simp only [Bool.or_eq_true, decide_eq_true_eq, List.mem_cons]
    constructor
    · rintro ((h | h) | h)
      · exact Or.inl h
      · exact Or.inr (Or.inl h.symm)
      · exact Or.inr (Or.inr h)
    · rintro (h | (h | h))
      · exact Or.inl (Or.inl h)
      · exact Or.inl (Or.inr h.symm)
      · exact Or.inr h

theorem setMany_lt : ∀ (ids : List Nat) (r : Nat), (∀ i ∈ ids, i < 32) → r < u32 →
    setMany r ids < u32 := by
  intro ids
  induction ids with
  | nil => intro r _ hr; exact hr
  | cons id rest ih =>
    intro r hb hr
    have hstep : setMany r (id :: rest) = setMany (Signal.set r id) rest := rfl
    rw [hstep]
    apply ih _ (fun i hi => hb i (List.mem_cons.mpr (Or.inr hi)))
    rw [set_eq_or_pow]
    show (r ||| 2 ^ id) < 2 ^ 32
    apply Nat.or_lt_two_pow hr
    exact (Nat.pow_lt_pow_iff_right (by norm_num)).mpr (hb id (List.mem_cons.mpr (Or.inl rfl)))

theorem resumeTask_ready (e : Executor) (i : Nat) : (resumeTask e i).ready = e.ready := by
  unfold resumeTask
  cases e.generators.get? i <;> rfl

theorem resumeTask_gens_length (e : Executor) (i : Nat) :
    (resumeTask e i).generators.length = e.generators.length := by
  unfold resumeTask
  cases e.generators.get? i with
  | none => rfl
  | some gn => simp

theorem resumeTask_router (e : Executor) (i : Nat) :
    (resumeTask e i).router = e.router ∨
      ∃ id, (resumeTask e i).router = Router.route e.router id i := by
  unfold resumeTask
  cases e.generators.get? i with
  | none => exact Or.inl rfl
  | some gn => exact Or.inr ⟨gn.1 gn.2, rfl⟩

theorem resumeTask_inv (e : Executor) (i : Nat) (rest : List Nat)
    (hn2 : (rest ++ e.router.map Prod.snd).Nodup)
    (hni : i ∉ rest ++ e.router.map Prod.snd)
    (hk : (e.router.map Prod.fst).Nodup) :
    (rest ++ (resumeTask e i).router.map Prod.snd).Nodup ∧
      (∀ x ∈ rest ++ (resumeTask e i).router.map Prod.snd,
        x ∈ rest ∨ x = i ∨ x ∈ e.router.map Prod.snd) ∧
      ((resumeTask e i).router.map Prod.fst).Nodup := by
  have hir : i ∉ rest := fun hc => hni (List.mem_append.mpr (Or.inl hc))
  have hiv : i ∉ e.router.map Prod.snd := fun hc => hni (List.mem_append.mpr (Or.inr hc))
  rcases resumeTask_router e i with hr | ⟨id, hr⟩
  · rw [hr]
    refine ⟨hn2, ?_, hk⟩
    intro x hx
    rcases List.mem_append.mp hx with h | h
    · exact Or.inl h
    · exact Or.inr (Or.inr h)
  · rw [hr]
    rw [List.nodup_append] at hn2
    obtain ⟨hnr, hnv, hdisj⟩ := hn2
    refine ⟨?_, ?_, route_fst_nodup _ _ _ hk⟩
    · rw [List.nodup_append]
      refine ⟨hnr, route_snd_nodup _ _ _ hnv hiv, ?_⟩
      intro x hxr hxv
      rcases route_snd_subset _ _ _ x hxv with h1 | h1
      · exact hir (h1 ▸ hxr)
      · exact hdisj hxr h1
    · intro x hx
      rcases List.mem_append.mp hx with h | h
      · exact Or.inl h
      · rcases route_snd_subset _ _ _ x h with h1 | h1
        · exact Or.inr (Or.inl h1)
        · exact Or.inr (Or.inr h1)

theorem dispatchList_inv : ∀ (l : List Nat) (e : Executor),
    (l ++ e.router.map Prod.snd).Nodup →
    (∀ x ∈ l ++ e.router.map Prod.snd, x < e.generators.length) →
    (e.router.map Prod.fst).Nodup →
    (dispatchList e l).ready = e.ready ∧
      (dispatchList e l).generators.length = e.generators.length ∧
      ((dispatchList e l).router.map Prod.snd).Nodup ∧
      (∀ x ∈ (dispatchList e l).router.map Prod.snd, x < e.generators.length) ∧
      ((dispatchList e l).router.map Prod.fst).Nodup ∧
      dispatchListOk e l = true := by
  intro l
  induction l with
  | nil =>
    intro e hn hb hk
    rw [List.nil_append] at hn hb
    exact ⟨rfl, rfl, hn, hb, hk, rfl⟩
  | cons i rest ih =>
    intro e hn hb hk
    rw [List.cons_append, List.nodup_cons] at hn
    obtain ⟨hni, hn2⟩ := hn
    have hi : i < e.generators.length := hb i (by simp)
    obtain ⟨ha1, ha2, ha3⟩ := resumeTask_inv e i rest hn2 hni hk
    have hblen := resumeTask_gens_length e i
    have hb2 : ∀ x ∈ rest ++ (resumeTask e i).router.map Prod.snd,
        x < (resumeTask e i).generators.length := by
      intro x hx
      rw [hblen]
      rcases ha2 x hx with h | h | h
      · refine hb x ?_
        rw [List.cons_append, List.mem_cons]
        exact Or.inr (List.mem_append.mpr (Or.inl h))
      · subst h; exact hi
      · refine hb x ?_
        rw [List.cons_append, List.mem_cons]
        exact Or.inr (List.mem_append.mpr (Or.inr h))
    have hrec := ih (resumeTask e i) ha1 hb2 ha3
    have hstep : dispatchList e (i :: rest) = dispatchList (resumeTask e i) rest := rfl
    have hokstep : dispatchListOk e (i :: rest)
        = (decide (i < e.generators.length) && dispatchListOk (resumeTask e i) rest) := rfl
    rw [hstep, hokstep]
    refine ⟨?_, ?_, hrec.2.2.1, ?_, hrec.2.2.2.2.1, ?_⟩
    · rw [hrec.1, resumeTask_ready]
    · rw [hrec.2.1, hblen]
    · intro x hx
      have := hrec.2.2.2.1 x hx
      omega
    · simp [hi, hrec.2.2.2.2.2]

theorem refs_length_le (e : Executor) (hn : (refsOf e).Nodup)
    (hb : ∀ x ∈ refsOf e, x < e.generators.length) :
    (refsOf e).length ≤ e.generators.length := by
  have h1 : refsOf e ⊆ List.range e.generators.length := by
    intro x hx
    exact List.mem_range.mpr (hb x hx)
  have h2 := (List.subperm_of_subset hn h1).length_le
  simpa using h2

theorem wakeOne_generators (e : Executor) (id : Nat) :
    (wakeOne e id).generators = e.generators := by
  cases h : Router.wake e.router id with
  | mk o m =>
    cases o with
    | none => simp [wakeOne, h]
    | some v => simp [wakeOne, h]

theorem wakeOne_ready_mono (e : Executor) (id x : Nat) (hx : x ∈ e.ready) :
    x ∈ (wakeOne e id).ready := by
  cases h : Router.wake e.router id with
  | mk o m =>
    cases o with
    | none => simpa [wakeOne, h] using hx
    | some v =>
      simp [wakeOne, h]
      exact Or.inl hx

theorem wakeOne_inv (e : Executor) (id : Nat)
    (hn : (refsOf e).Nodup) (hb : ∀ x ∈ refsOf e, x < e.generators.length)
    (hk : (e.router.map Prod.fst).Nodup) :
    (refsOf (wakeOne e id)).Nodup ∧
      (∀ x ∈ refsOf (wakeOne e id), x < e.generators.length) ∧
      ((wakeOne e id).router.map Prod.fst).Nodup := by
  cases h : Router.wake e.router id with
  | mk o m =>
    cases o with
    | none =>
      have h1 : (mapRemove e.router id).1 = none := by
        rw [show mapRemove e.router id = Router.wake e.router id from rfl, h]
      have h2 : m = e.router := by
        have := mapRemove_none_eq e.router id h1
        rw [show mapRemove e.router id = Router.wake e.router id from rfl, h] at this
        exact this
      subst h2
      refine ⟨?_, ?_, ?_⟩
      · simpa [refsOf, wakeOne, h] using hn
      · intro x hx
        refine hb x ?_
        simpa [refsOf, wakeOne, h] using hx
      · simpa [wakeOne, h] using hk
    | some v =>
      have h1 : (mapRemove e.router id).1 = some v := by
        rw [show mapRemove e.router id = Router.wake e.router id from rfl, h]
      have h2 : (mapRemove e.router id).2 = m := by
        rw [show mapRemove e.router id = Router.wake e.router id from rfl, h]
      obtain ⟨hpv, hpk⟩ := mapRemove_some_perm e.router id v h1
      rw [h2] at hpv hpk
      have hperm : (refsOf e).Perm (e.ready ++ (v :: m.map Prod.snd)) :=
        List.Perm.append_left e.ready hpv
      have hre : refsOf (wakeOne e id) = e.ready ++ (v :: m.map Prod.snd) := by
        simp [refsOf, wakeOne, h]
      refine ⟨?_, ?_, ?_⟩
      · rw [hre]
        exact hperm.nodup hn
      · intro x hx
        rw [hre] at hx
        exact hb x (hperm.mem_iff.mpr hx)
      · have : (wakeOne e id).router = m := by simp [wakeOne, h]
        rw [this]
        exact (List.nodup_cons.mp (hpk.nodup hk)).2

theorem wakePhase_step (e : Executor) (id : Nat) (ids : List Nat) :
    wakePhase e (id :: ids) = wakePhase (wakeOne e id) ids := rfl

theorem wakePhase_inv : ∀ (ids : List Nat) (e : Executor),
    (refsOf e).Nodup → (∀ x ∈ refsOf e, x < e.generators.length) →
    ((e.router.map Prod.fst)).Nodup →
    (refsOf (wakePhase e ids)).Nodup ∧
      (∀ x ∈ refsOf (wakePhase e ids), x < e.generators.length) ∧
      ((wakePhase e ids).router.map Prod.fst).Nodup ∧
      (wakePhase e ids).generators = e.generators := by
  intro ids
  induction ids with
  | nil => intro e hn hb hk; exact ⟨hn, hb, hk, rfl⟩
  | cons id rest ih =>
    intro e hn hb hk
    obtain ⟨h1, h2, h3⟩ := wakeOne_inv e id hn hb hk
    have hg := wakeOne_generators e id
    have hrec := ih (wakeOne e id) h1 (by rw [hg]; exact h2) h3
    rw [wakePhase_step]
    refine ⟨hrec.1, ?_, hrec.2.2.1, ?_⟩
    · intro x hx
      have := hrec.2.1 x hx
      rw [hg] at this
      exact this
    · rw [hrec.2.2.2, hg]

theorem wakeListOk_true : ∀ (ids : List Nat) (e : Executor),
    (refsOf e).Nodup → (∀ x ∈ refsOf e, x < e.generators.length) →
    e.generators.length ≤ taskCapacity → ((e.router.map Prod.fst)).Nodup →
    wakeListOk e ids = true := by
  intro ids
  induction ids with
  | nil => intro e _ _ _ _; rfl
  | cons id rest ih =>
    intro e hn hb hcap hk
    obtain ⟨h1, h2, h3⟩ := wakeOne_inv e id hn hb hk
    have hg := wakeOne_generators e id
    have hrec := ih (wakeOne e id) h1 (by rw [hg]; exact h2) (by rw [hg]; exact hcap) h3
    cases h : Router.wake e.router id with
    | mk o m =>
      cases o with
      | none => simpa [wakeListOk, h] using hrec
      | some v =>
        have h1r : (mapRemove e.router id).1 = some v := by
          rw [show mapRemove e.router id = Router.wake e.router id from rfl, h]
        have hfit : e.ready.length < taskCapacity := by
          have hlen := refs_length_le e hn hb
          have happ : (refsOf e).length = e.ready.length + (e.router.map Prod.snd).length := by
            simp [refsOf]
          have hne : e.router ≠ [] := by
            intro hnil
            rw [hnil] at h1r
            simp [mapRemove] at h1r
          have hpos : 0 < (e.router.map Prod.snd).length := by
            cases hr : e.router with
            | nil => exact absurd hr hne
            | cons p ps => simp [hr]
          omega
        simp [wakeListOk, h, hfit, hrec]

theorem wakePhase_ready_mono : ∀ (ids : List Nat) (e : Executor) (x : Nat),
    x ∈ e.ready → x ∈ (wakePhase e ids).ready := by
  intro ids
  induction ids with
  | nil => intro e x hx; exact hx
  | cons id rest ih =>
    intro e x hx
    rw [wakePhase_step]
    exact ih (wakeOne e id) x (wakeOne_ready_mono e id x hx)

theorem wakePhase_no_miss : ∀ (ids : List Nat) (e : Executor) (id i : Nat),
    (id, i) ∈ e.router → (e.router.map Prod.fst).Nodup → id ∈ ids →
    i ∈ (wakePhase e ids).ready := by
  intro ids
  induction ids with
  | nil => intro e id i _ _ hmem; simp at hmem
  | cons h0 rest ih =>
    intro e id i hr hk hmem
    rw [wakePhase_step]
    by_cases he : h0 = id
    · subst he
      have h1 : (mapRemove e.router h0).1 = some i := mapRemove_first e.router h0 i hr hk
      have hw : Router.wake e.router h0 = (some i, (mapRemove e.router h0).2) := by
        rw [show Router.wake e.router h0 = mapRemove e.router h0 from rfl]
        rw [← h1]
      have hready : i ∈ (wakeOne e h0).ready := by
        simp [wakeOne, hw]
      exact wakePhase_ready_mono rest (wakeOne e h0) i hready
    · rcases List.mem_cons.mp hmem with hh | hh
      · exact absurd hh.symm he
      · have hkeep : (id, i) ∈ (wakeOne e h0).router := by
          cases hwk : Router.wake e.router h0 with
          | mk o m =>
            have hm : m = (mapRemove e.router h0).2 := by
              rw [show mapRemove e.router h0 = Router.wake e.router h0 from rfl, hwk]
            have hmem2 : (id, i) ∈ (mapRemove e.router h0).2 :=
              mapRemove_keep e.router h0 id i hr (fun hc => he hc.symm)
            cases o with
            | none =>
              simp [wakeOne, hwk]
              rw [hm]
              exact hmem2
            | some v =>
              simp [wakeOne, hwk]
              rw [hm]
              exact hmem2
        have hknew : ((wakeOne e h0).router.map Prod.fst).Nodup := by
          cases hwk : Router.wake e.router h0 with
          | mk o m =>
            have hm : m = (mapRemove e.router h0).2 := by
              rw [show mapRemove e.router h0 = Router.wake e.router h0 from rfl, hwk]
            have := mapRemove_fst_nodup e.router h0 hk
            cases o with
            | none =>
              simp [wakeOne, hwk]
              rw [hm]
              exact this
            | some v =>
              simp [wakeOne, hwk]
              rw [hm]
              exact this
        exact ih (wakeOne e h0) id i hkeep hknew hh

theorem spawn_inv (e : Executor) (g : GTask) (h : SchedInv e) : SchedInv ((e.spawn g).2) := by
  obtain ⟨hn, hb, hk, hcap⟩ := h
  by_cases hl : e.generators.length < taskCapacity
  · have hspawn : (e.spawn g).2
        = ⟨e.generators ++ [(g, 0)], e.router, e.ready ++ [e.generators.length]⟩ := by
      simp [Executor.spawn, hl]
    rw [hspawn]
    have hrefs : refsOf ⟨e.generators ++ [(g, 0)], e.router,
          e.ready ++ [e.generators.length]⟩
        = e.ready ++ e.generators.length :: e.router.map Prod.snd := by
      simp [refsOf]
    have hperm : (e.ready ++ e.generators.length :: e.router.map Prod.snd).Perm
        (e.generators.length :: refsOf e) := List.perm_middle
    have hfresh : e.generators.length ∉ refsOf e := fun hc => by
      have := hb _ hc
      omega
    refine ⟨?_, ?_, hk, ?_⟩
    · rw [hrefs]
      exact hperm.symm.nodup (List.nodup_cons.mpr ⟨hfresh, hn⟩)
    · intro x hx
      rw [hrefs] at hx
      have hx2 := hperm.mem_iff.mp hx
      simp only [List.length_append, List.length_cons, List.length_nil]
      rcases List.mem_cons.mp hx2 with h1 | h1
      · omega
      · have := hb x h1
        omega
    · simp only [List.length_append, List.length_cons, List.length_nil]
      omega
  · have hspawn : (e.spawn g).2 = e := by
      simp [Executor.spawn, hl]
    rw [hspawn]
    exact ⟨hn, hb, hk, hcap⟩

theorem new_inv : SchedInv Executor.new := by
  refine ⟨?_, ?_, ?_, ?_⟩ <;> simp [Executor.new, refsOf, taskCapacity]

theorem spawnAll_inv : ∀ (gs : List GTask) (e : Executor),
    SchedInv e → SchedInv (spawnAll e gs).2 := by
  intro gs
  induction gs with
  | nil => intro e h; exact h
  | cons g rest ih =>
    intro e h
    exact ih ((e.spawn g).2) (spawn_inv e g h)

theorem dispatch_inv (e : Executor) (h : SchedInv e) :
    SchedInv (dispatch e) ∧ (dispatch e).generators.length = e.generators.length ∧
      (dispatch e).ready = [] ∧ dispatchOk e = true := by
  obtain ⟨hn, hb, hk, hcap⟩ := h
  have hd := dispatchList_inv e.ready { e with ready := [] } hn hb hk
  obtain ⟨hready, hlen, hvn, hvb, hkn, hok⟩ := hd
  have hrefs : refsOf (dispatch e)
      = (dispatch e).ready ++ (dispatch e).router.map Prod.snd := rfl
  refine ⟨⟨?_, ?_, ?_, ?_⟩, ?_, ?_, ?_⟩
  · rw [hrefs]
    show ((dispatchList { e with ready := [] } e.ready).ready
      ++ (dispatchList { e with ready := [] } e.ready).router.map Prod.snd).Nodup
    rw [hready]
    simpa using hvn
  · intro x hx
    rw [hrefs] at hx
    have hx2 : x ∈ (dispatchList { e with ready := [] } e.ready).ready
        ++ (dispatchList { e with ready := [] } e.ready).router.map Prod.snd := hx
    rw [hready] at hx2
    simp only [List.nil_append] at hx2
    have := hvb x hx2
    show x < (dispatchList { e with ready := [] } e.ready).generators.length
    rw [hlen]
    exact this
  · exact hkn
  · show (dispatchList { e with ready := [] } e.ready).generators.length ≤ taskCapacity
    rw [hlen]
    exact hcap
  · exact hlen
  · exact hready
  · exact hok

theorem runIter_inv (e : Executor) (reg : Nat) (h : SchedInv e) : SchedInv (runIter e reg) := by
  obtain ⟨⟨hn, hb, hk, hcap⟩, hlen, hready, _⟩ := dispatch_inv e h
  have hw := wakePhase_inv (signalsList (Signals.read reg).1) (dispatch e) hn hb hk
  obtain ⟨h1, h2, h3, h4⟩ := hw
  refine ⟨h1, ?_, h3, ?_⟩
  · intro x hx
    have := h2 x hx
    show x < (wakePhase (dispatch e) (signalsList (Signals.read reg).1)).generators.length
    rw [h4]
    exact this
  · show (wakePhase (dispatch e) (signalsList (Signals.read reg).1)).generators.length
      ≤ taskCapacity
    rw [h4]
    exact hcap

theorem reach_inv : ∀ (e : Executor), Reach e → SchedInv e := by
  intro e h
  induction h with
  | spawned gs => exact spawnAll_inv gs Executor.new new_inv
  | step e2 reg _ _ _ ih => exact runIter_inv e2 reg ih

theorem spawnAll_ok : ∀ (gs : List GTask) (e : Executor),
    e.generators.length + gs.length ≤ taskCapacity →
    (∀ r ∈ (spawnAll e gs).1, r = Except.ok ()) ∧
      (spawnAll e gs).2.generators = e.generators ++ gs.map (fun t => (t, 0)) ∧
      (spawnAll e gs).2.ready = e.ready ++ List.range' e.generators.length gs.length ∧
      (spawnAll e gs).2.router = e.router := by
  intro gs
  induction gs with
  | nil =>
    intro e hcap
    refine ⟨?_, ?_, ?_, rfl⟩
    · intro r hr
      simp [spawnAll] at hr
    · simp [spawnAll]
    · simp [spawnAll]
  | cons g rest ih =>
    intro e hcap
    have hl : e.generators.length < taskCapacity := by
      simp only [List.length_cons] at hcap
      omega
    have hsp1 : (e.spawn g).1 = Except.ok () := by
      simp [Executor.spawn, hl]
    have hsp2 : (e.spawn g).2
        = ⟨e.generators ++ [(g, 0)], e.router, e.ready ++ [e.generators.length]⟩ := by
      simp [Executor.spawn, hl]
    have hlen2 : (e.spawn g).2.generators.length = e.generators.length + 1 := by
      rw [hsp2]
      simp
    have hrec := ih (e.spawn g).2 (by
      rw [hlen2]
      simp only [List.length_cons] at hcap
      omega)
    obtain ⟨hr1, hr2, hr3, hr4⟩ := hrec
    have hstep1 : (spawnAll e (g :: rest)).1 = (e.spawn g).1 :: (spawnAll (e.spawn g).2 rest).1 :=
      rfl
    have hstep2 : (spawnAll e (g :: rest)).2 = (spawnAll (e.spawn g).2 rest).2 := rfl
    refine ⟨?_, ?_, ?_, ?_⟩
    · intro r hr
      rw [hstep1] at hr
      rcases List.mem_cons.mp hr with h | h
      · rw [h, hsp1]
      · exact hr1 r h
    · rw [hstep2, hr2, hsp2]
      simp
    · rw [hstep2, hr3, hsp2]
      simp only [List.length_cons, List.map_cons]
      rw [List.append_assoc]
      congr 1
      simp only [List.length_append, List.length_cons, List.length_nil,
        List.singleton_append]
      rw [List.range'_succ]
    · rw [hstep2, hr4, hsp2]

/-- C1: for every sequence of Signal::set calls with ids in 0..32, starting from the
all-zero register of process start, followed by one Signals::read with no other read
interleaved: iterating the returned snapshot yields exactly the distinct set of those ids
(membership coincides, and no id is yielded twice), and a Signals::read performed
immediately afterwards (no intervening set) returns a snapshot whose iteration yields
nothing. -/
theorem C1_set_snapshot_roundtrip (ids : List Nat) (h : ∀ i ∈ ids, i < 32) :
    (∀ i, i ∈ signalsList (Signals.read (setMany 0 ids)).1 ↔ i ∈ ids) ∧
      (signalsList (Signals.read (setMany 0 ids)).1).Nodup ∧
      signalsList (Signals.read (Signals.read (setMany 0 ids)).2).1 = [] := by
  have hlt : setMany 0 ids < u32 := setMany_lt ids 0 h (by norm_num [u32])
  obtain ⟨hm, hp, _⟩ := signalsList_spec (setMany 0 ids) hlt
  refine ⟨?_, ?_, ?_⟩
  · intro i
    show i ∈ signalsList (setMany 0 ids) ↔ i ∈ ids
    rw [hm i, setMany_mem_iff]
    simp [Nat.zero_testBit]
  · show (signalsList (setMany 0 ids)).Nodup
    exact hp.imp (fun hlt2 => by omega)
  · show signalsList 0 = []
    unfold signalsList
    rw [drainFull_zero]

theorem C1_witness :
    (5 ∈ signalsList (Signals.read (setMany 0 [3, 5, 3])).1 ↔ 5 ∈ [3, 5, 3]) ∧
      (signalsList (Signals.read (setMany 0 [3, 5, 3])).1).Nodup ∧
      signalsList (Signals.read (Signals.read (setMany 0 [3, 5, 3])).2).1 = [] :=
  ⟨(C1_set_snapshot_roundtrip [3, 5, 3] (by decide)).1 5,
    (C1_set_snapshot_roundtrip [3, 5, 3] (by decide)).2.1,
    (C1_set_snapshot_roundtrip [3, 5, 3] (by decide)).2.2⟩

/-- C8: iterating a 32-bit snapshot yields the positions of exactly its set bits, each
exactly once (the yielded list has no duplicates), in strictly decreasing position order
(highest set bit first); after the last set bit is yielded the residual local copy is 0 and
a further next call yields nothing.  The clearing happens in the local copy only: by
construction the iterator state handled by Signals.next consists of nothing but that copy,
the shared register is not part of it. -/
theorem C8_snapshot_iteration (s : Nat) (hs : s < u32) :
    (∀ i, i ∈ signalsList s ↔ s.testBit i = true) ∧
      (signalsList s).Pairwise (fun x y => y < x) ∧
      (signalsList s).Nodup ∧
      (drainFull 32 s).2 = 0 ∧
      Signals.next 0 = (none, 0) := by
  obtain ⟨h1, h2, h3⟩ := signalsList_spec s hs
  exact ⟨h1, h2, h2.imp (fun h => by omega), h3, rfl⟩

theorem C8_witness :
    (3 ∈ signalsList 11 ↔ (11 : Nat).testBit 3 = true) ∧
      (signalsList 11).Pairwise (fun x y => y < x) ∧
      (signalsList 11).Nodup ∧
      (drainFull 32 11).2 = 0 ∧
      Signals.next 0 = (none, 0) :=
  ⟨(C8_snapshot_iteration 11 (by decide)).1 3,
    (C8_snapshot_iteration 11 (by decide)).2.1,
    (C8_snapshot_iteration 11 (by decide)).2.2.1,
    (C8_snapshot_iteration 11 (by decide)).2.2.2.1,
    (C8_snapshot_iteration 11 (by decide)).2.2.2.2⟩

/-- C9: Signal::set is total by construction (a function into register words, no error
path), and for every id below the register width and every prior register value its only
effect is to set bit id: bit id reads 1 afterwards, every other bit keeps its prior value,
and set calls for distinct ids commute with both updates retained (no lost update).  The
boundary identifiers 0 and 31 are instances of the quantified id. -/
theorem C9_set_total_frame (reg id : Nat) (_hid : id < 32) :
    (Signal.set reg id).testBit id = true ∧
      (∀ j, j ≠ id → (Signal.set reg id).testBit j = reg.testBit j) ∧
      (∀ id2, Signal.set (Signal.set reg id) id2 = Signal.set (Signal.set reg id2) id) ∧
      (∀ id2, id2 ≠ id →
        (Signal.set (Signal.set reg id) id2).testBit id = true ∧
          (Signal.set (Signal.set reg id) id2).testBit id2 = true) := by
  have hself : ∀ (r i : Nat), (Signal.set r i).testBit i = true := by
    intro r i
    rw [set_testBit]
    simp
  refine ⟨hself reg id, ?_, ?_, ?_⟩
  · intro j hj
    rw [set_testBit]
    have : ¬ id = j := fun hc => hj hc.symm
    simp [this]
  · intro id2
    rw [set_eq_or_pow, set_eq_or_pow, set_eq_or_pow, set_eq_or_pow]
    rw [Nat.or_assoc, Nat.or_assoc, Nat.or_comm (2 ^ id) (2 ^ id2)]
  · intro id2 hne
    constructor
    · rw [set_testBit, hself reg id]
      simp
    · exact hself (Signal.set reg id) id2

theorem C9_witness :
    (Signal.set 5 31).testBit 31 = true ∧
      (Signal.set 5 31).testBit 3 = (5 : Nat).testBit 3 ∧
      Signal.set (Signal.set 5 31) 0 = Signal.set (Signal.set 5 0) 31 ∧
      (Signal.set (Signal.set 5 31) 0).testBit 31 = true :=
  ⟨(C9_set_total_frame 5 31 (by decide)).1,
    (C9_set_total_frame 5 31 (by decide)).2.1 3 (by decide),
    (C9_set_total_frame 5 31 (by decide)).2.2.1 0,
    ((C9_set_total_frame 5 31 (by decide)).2.2.2 0 (by decide)).1⟩

/-- C5: over every router state satisfying the index-map representation invariant
(distinct keys): wake(id) with nothing registered for id returns nothing and leaves the
router unchanged — a no-op every time it is repeated; and after a route(id, c) that
registers its continuation (the id is already present or the map has spare capacity, which
is the claim's premise that a registration exists), wake(id) returns exactly c and removes
that registration, so a second wake(id) immediately after returns nothing. -/
theorem C5_wake_semantics {α : Type} (r : List (Nat × α)) (id : Nat) (c : α)
    (hk : (r.map Prod.fst).Nodup) :
    (mapContains r id = false → Router.wake r id = (none, r)) ∧
      (mapContains r id = true ∨ r.length < taskCapacity →
        (Router.wake (Router.route r id c) id).1 = some c ∧
          Router.wake (Router.wake (Router.route r id c) id).2 id
            = (none, (Router.wake (Router.route r id c) id).2)) := by
  constructor
  · intro hc
    exact mapRemove_of_not_contains r id hc
  · intro hcap
    by_cases hc : mapContains r id
    · have hroute := route_eq_replace r id c hc
      have hrem := mapRemove_replace r id c hk hc
      have hwake : Router.wake (Router.route r id c) id = (some c, (mapRemove r id).2) := by
        rw [hroute]
        exact hrem
      have hnc : mapContains (mapRemove r id).2 id = false :=
        mapRemove_not_contains_of_nodup r id hk
      rw [hwake]
      exact ⟨rfl, mapRemove_of_not_contains _ id hnc⟩
    · have hc2 : mapContains r id = false := by simpa using hc
      have hl : r.length < taskCapacity := by
        rcases hcap with h | h
        · rw [hc2] at h
          simp at h
        · exact h
      have hroute := route_eq_append r id c hc2 hl
      have hwake : Router.wake (Router.route r id c) id = (some c, r) := by
        rw [hroute]
        exact mapRemove_append_fresh r id c hc2
      rw [hwake]
      exact ⟨rfl, mapRemove_of_not_contains r id hc2⟩

theorem C5_witness :
    Router.wake ([] : List (Nat × Nat)) 3 = (none, []) ∧
      (Router.wake (Router.route ([] : List (Nat × Nat)) 3 7) 3).1 = some 7 ∧
      Router.wake (Router.wake (Router.route ([] : List (Nat × Nat)) 3 7) 3).2 3
        = (none, (Router.wake (Router.route ([] : List (Nat × Nat)) 3 7) 3).2) :=
  ⟨(C5_wake_semantics ([] : List (Nat × Nat)) 3 7 (by simp)).1 rfl,
    ((C5_wake_semantics ([] : List (Nat × Nat)) 3 7 (by simp)).2 (Or.inr (by decide))).1,
    ((C5_wake_semantics ([] : List (Nat × Nat)) 3 7 (by simp)).2 (Or.inr (by decide))).2⟩

/-- C6: for every router state with distinct keys, route(id, c1) followed by route(id, c2)
with no intervening wake(id) produces exactly the state route(id, c2) alone produces — at
most one pending continuation per id, the second registration replaces the first; when the
registration can be performed (id present or spare capacity) the subsequent wake(id)
returns c2; and in every case whatever that wake returns is c2, never c1 (unless they are
equal). -/
theorem C6_route_last_writer_wins {α : Type} (r : List (Nat × α)) (id : Nat) (c1 c2 : α)
    (hk : (r.map Prod.fst).Nodup) :
    Router.route (Router.route r id c1) id c2 = Router.route r id c2 ∧
      (mapContains r id = true ∨ r.length < taskCapacity →
        (Router.wake (Router.route (Router.route r id c1) id c2) id).1 = some c2) ∧
      (∀ x, (Router.wake (Router.route (Router.route r id c1) id c2) id).1 = some x →
        x = c2) := by
  have hmain : Router.route (Router.route r id c1) id c2 = Router.route r id c2 := by
    by_cases hc : mapContains r id
    · rw [route_eq_replace r id c1 hc, route_eq_replace r id c2 hc,
        route_eq_replace (mapReplace r id c1) id c2 (by rw [mapContains_replace]; exact hc),
        mapReplace_replace]
    · have hc2 : mapContains r id = false := by simpa using hc
      by_cases hl : r.length < taskCapacity
      · rw [route_eq_append r id c1 hc2 hl, route_eq_append r id c2 hc2 hl,
          route_eq_replace (r ++ [(id, c1)]) id c2 (mapContains_append_self r id c1),
          mapReplace_append_fresh r id c1 c2 hc2]
      · rw [route_eq_self r id c1 hc2 hl]
  have hwake : mapContains r id = true ∨ r.length < taskCapacity →
      (Router.wake (Router.route (Router.route r id c1) id c2) id).1 = some c2 := by
    intro hcap
    rw [hmain]
    exact ((C5_wake_semantics r id c2 hk).2 hcap).1
  refine ⟨hmain, hwake, ?_⟩
  intro x hx
  by_cases hc : mapContains r id
  · have := hwake (Or.inl hc)
    exact (Option.some.inj (this.symm.trans hx)).symm
  · have hc2 : mapContains r id = false := by simpa using hc
    by_cases hl : r.length < taskCapacity
    · have := hwake (Or.inr hl)
      exact (Option.some.inj (this.symm.trans hx)).symm
    · rw [hmain, route_eq_self r id c2 hc2 hl] at hx
      have := mapRemove_of_not_contains r id hc2
      rw [show Router.wake r id = mapRemove r id from rfl, this] at hx
      simp at hx

theorem C6_witness :
    Router.route (Router.route ([(9, 1)] : List (Nat × Nat)) 4 5) 4 6
        = Router.route ([(9, 1)] : List (Nat × Nat)) 4 6 ∧
      (Router.wake (Router.route (Router.route ([(9, 1)] : List (Nat × Nat)) 4 5) 4 6) 4).1
        = some 6 :=
  ⟨(C6_route_last_writer_wins ([(9, 1)] : List (Nat × Nat)) 4 5 6 (by decide)).1,
    (C6_route_last_writer_wins ([(9, 1)] : List (Nat × Nat)) 4 5 6 (by decide)).2.1
      (Or.inr (by decide))⟩

/-- C4 counterexample: with the router full (eight registrations, ids 0..7) and id 8 not
present, route is rejected, but the claim's reporting is absent from the code: the
spec-modelled routeSpec (built from the words of the spec's error-handling section) returns
RouteCapacityExceeded at this input, while the code's Router.route returns only the
unchanged router — its caller receives no error value at all (the futures executor drops
the insertion error with `.ok()`; the generator executor declares it unreachable). -/
theorem C4_counterexample :
    Router.route ([(0, 10), (1, 11), (2, 12), (3, 13), (4, 14), (5, 15), (6, 16), (7, 17)]
        : List (Nat × Nat)) 8 99
      = [(0, 10), (1, 11), (2, 12), (3, 13), (4, 14), (5, 15), (6, 16), (7, 17)] ∧
      Router.routeSpec ([(0, 10), (1, 11), (2, 12), (3, 13), (4, 14), (5, 15), (6, 16),
          (7, 17)] : List (Nat × Nat)) 8 99
        = Except.error RouteError.RouteCapacityExceeded := by
  constructor <;> rfl

/-- C4 amended: when the router map is full, a route(id, c) call for an id not already
present is rejected rather than performed — the mapping is left unchanged — but the
rejection is not reported to the task-context caller: route returns nothing beyond the
router state, the futures executor's Router::route discards the insertion error with
`.ok()`, and the generator executor treats that error branch as unreachable; the
RouteCapacityExceeded report exists only in the spec-modelled routeSpec. -/
theorem C4_full_route_rejected_silently {α : Type} (r : List (Nat × α)) (id : Nat) (c : α)
    (hfull : r.length = taskCapacity) (habs : mapContains r id = false) :
    Router.route r id c = r ∧
      Router.routeSpec r id c = Except.error RouteError.RouteCapacityExceeded := by
  constructor
  · exact route_eq_self r id c habs (by omega)
  · unfold Router.routeSpec mapInsert
    rw [habs]
    simp [hfull]

theorem C4_witness :
    Router.route ([(0, 0), (1, 0), (2, 0), (3, 0), (4, 0), (5, 0), (6, 0), (7, 0)]
        : List (Nat × Nat)) 9 42
      = [(0, 0), (1, 0), (2, 0), (3, 0), (4, 0), (5, 0), (6, 0), (7, 0)] ∧
      Router.routeSpec ([(0, 0), (1, 0), (2, 0), (3, 0), (4, 0), (5, 0), (6, 0), (7, 0)]
          : List (Nat × Nat)) 9 42
        = Except.error RouteError.RouteCapacityExceeded :=
  C4_full_route_rejected_silently
    ([(0, 0), (1, 0), (2, 0), (3, 0), (4, 0), (5, 0), (6, 0), (7, 0)] : List (Nat × Nat))
    9 42 (by decide) (by decide)

/-- C7: from a fresh executor, every spawn of an 8-task sequence succeeds — the table then
holds exactly those tasks (with fresh resume counters) and the ready queue holds their
indexes 0..7 in spawn order — and a 9th spawn reports a capacity error while leaving the
executor state, including the first 8 tasks and their ready-queue entries, unchanged. -/
theorem C7_spawn_capacity (gs : List GTask) (g : GTask) (h8 : gs.length = taskCapacity) :
    (∀ x ∈ (spawnAll Executor.new gs).1, x = Except.ok ()) ∧
      (spawnAll Executor.new gs).2.generators = gs.map (fun t => (t, 0)) ∧
      (spawnAll Executor.new gs).2.ready = List.range taskCapacity ∧
      ((spawnAll Executor.new gs).2.spawn g).1 = Except.error () ∧
      ((spawnAll Executor.new gs).2.spawn g).2 = (spawnAll Executor.new gs).2 := by
  have hcap : Executor.new.generators.length + gs.length ≤ taskCapacity := by
    simp [Executor.new, h8]
  obtain ⟨h1, h2, h3, h4⟩ := spawnAll_ok gs Executor.new hcap
  have hlen : (spawnAll Executor.new gs).2.generators.length = taskCapacity := by
    rw [h2]
    simp [Executor.new, h8]
  have hnotlt : ¬ (spawnAll Executor.new gs).2.generators.length < taskCapacity := by
    omega
  refine ⟨h1, ?_, ?_, ?_, ?_⟩
  · rw [h2]
    simp [Executor.new]
  · rw [h3]
    simp [Executor.new, h8, List.range_eq_range']
  · simp [Executor.spawn, hnotlt]
  · simp [Executor.spawn, hnotlt]

theorem C7_witness :
    ((spawnAll Executor.new [fun _ => 0, fun _ => 1, fun _ => 2, fun _ => 3, fun _ => 4,
          fun _ => 5, fun _ => 6, fun _ => 7]).2.spawn (fun _ => 8)).1 = Except.error () ∧
      (spawnAll Executor.new [fun _ => 0, fun _ => 1, fun _ => 2, fun _ => 3, fun _ => 4,
          fun _ => 5, fun _ => 6, fun _ => 7]).2.ready = List.range taskCapacity :=
  ⟨(C7_spawn_capacity [fun _ => 0, fun _ => 1, fun _ => 2, fun _ => 3, fun _ => 4,
      fun _ => 5, fun _ => 6, fun _ => 7] (fun _ => 8) (by decide)).2.2.2.1,
    (C7_spawn_capacity [fun _ => 0, fun _ => 1, fun _ => 2, fun _ => 3, fun _ => 4,
      fun _ => 5, fun _ => 6, fun _ => 7] (fun _ => 8) (by decide)).2.2.1⟩

/-- C3: in every reachable scheduler state each spawned task index is referenced at most
once across the ready queue and the router combined (the concatenation of queue entries
and router values has no duplicate), so no single signal firing can enqueue a task twice;
and the wake step loses no pending task: for every registration (id, i) in the router and
every register word whose bit id is set, running the wake loop over that snapshot puts
index i into the ready queue. -/
theorem C3_refs_unique_no_missed_wakeup (e : Executor) (he : Reach e) :
    (refsOf e).Nodup ∧
      (∀ id i reg, (id, i) ∈ e.router → reg < u32 → reg.testBit id = true →
        i ∈ (wakePhase e (signalsList reg)).ready) := by
  obtain ⟨h1, h2, h3, h4⟩ := reach_inv e he
  refine ⟨h1, ?_⟩
  intro id i reg hm hr ht
  exact wakePhase_no_miss (signalsList reg) e id i hm h3
    (((signalsList_spec reg hr).1 id).mpr ht)

theorem C3_witness :
    (refsOf (runIter (spawnAll Executor.new [fun _ => 3]).2 (2 ^ 5))).Nodup ∧
      0 ∈ (wakePhase (runIter (spawnAll Executor.new [fun _ => 3]).2 (2 ^ 5))
        (signalsList (2 ^ 3))).ready :=
  ⟨(C3_refs_unique_no_missed_wakeup _
      (Reach.step _ _ (Reach.spawned [fun _ => 3]) (by decide) (by decide))).1,
    (C3_refs_unique_no_missed_wakeup _
      (Reach.step _ _ (Reach.spawned [fun _ => 3]) (by decide) (by decide))).2
      3 0 (2 ^ 3) (by decide) (by decide) (by decide)⟩

/-- C10: in every reachable scheduler state (spawn assigns indexes consecutively from 0 and
the model's spawn rejects a 9th task, which is the claim's at-most-8 precondition), every
index the dispatch loop dequeues is in bounds for the task table (dispatchOk), every
enqueue performed by the wake loop that follows the dispatch finds free capacity in the
8-slot ready queue (wakeListOk), and a spawn that succeeds performs its enqueue with free
queue capacity — so the unchecked table reads and unchecked enqueues of both executors
never reach their out-of-bounds or queue-full branches. -/
theorem C10_unchecked_accesses_safe (e : Executor) (reg : Nat) (he : Reach e)
    (_hr : reg < u32) :
    dispatchOk e = true ∧
      wakeListOk (dispatch e) (signalsList reg) = true ∧
      (∀ g, (e.spawn g).1 = Except.ok () → e.ready.length < taskCapacity) := by
  obtain ⟨hn, hb, hk, hcap⟩ := reach_inv e he
  obtain ⟨⟨hn2, hb2, hk2, hcap2⟩, hlen, hready, hok⟩ := dispatch_inv e ⟨hn, hb, hk, hcap⟩
  refine ⟨hok, ?_, ?_⟩
  · exact wakeListOk_true (signalsList reg) (dispatch e) hn2 hb2 hcap2 hk2
  · intro g hg
    have hlt : e.generators.length < taskCapacity := by
      by_contra hc
      simp [Executor.spawn, hc] at hg
    have hrlen : (refsOf e).length ≤ e.generators.length := refs_length_le e hn hb
    have hlen2 : (refsOf e).length = e.ready.length + (e.router.map Prod.snd).length := by
      simp [refsOf]
    omega

theorem C10_witness :
    dispatchOk (spawnAll Executor.new [fun _ => 2, fun _ => 4]).2 = true ∧
      wakeListOk (dispatch (spawnAll Executor.new [fun _ => 2, fun _ => 4]).2)
        (signalsList (2 ^ 2)) = true :=
  ⟨(C10_unchecked_accesses_safe (spawnAll Executor.new [fun _ => 2, fun _ => 4]).2 (2 ^ 2)
      (Reach.spawned [fun _ => 2, fun _ => 4]) (by decide)).1,
    (C10_unchecked_accesses_safe (spawnAll Executor.new [fun _ => 2, fun _ => 4]).2 (2 ^ 2)
      (Reach.spawned [fun _ => 2, fun _ => 4]) (by decide)).2.1⟩

theorem parked_eq (a b : Nat) (hab : a ≠ b) :
    parked a b = ⟨[(constTask a, 1), (constTask b, 1)], [(a, 0), (b, 1)], []⟩ := by
  have hba : b ≠ a := fun h => hab h.symm
  simp [parked, Executor.new, Executor.spawn, taskCapacity, dispatch, dispatchList,
    resumeTask, Router.route, mapInsert, mapContains, mapReplace, constTask, hab, hba]

theorem wake_parked_one (a b : Nat) (hab : a ≠ b) :
    dispatch (wakePhase ⟨[(constTask a, 1), (constTask b, 1)], [(a, 0), (b, 1)], []⟩ [a])
      = ⟨[(constTask a, 2), (constTask b, 1)], [(b, 1), (a, 0)], []⟩ := by
  have hba : b ≠ a := fun h => hab h.symm
  simp [wakePhase, wakeOne, Router.wake, mapRemove, dispatch, dispatchList, resumeTask,
    Router.route, mapInsert, mapContains, mapReplace, constTask, taskCapacity, hab, hba]

theorem wake_parked_two (a b : Nat) (hab : a ≠ b) :
    dispatch (wakePhase ⟨[(constTask a, 1), (constTask b, 1)], [(a, 0), (b, 1)], []⟩ [b, a])
      = ⟨[(constTask a, 2), (constTask b, 2)], [(b, 1), (a, 0)], []⟩ := by
  have hba : b ≠ a := fun h => hab h.symm
  simp [wakePhase, wakeOne, Router.wake, mapRemove, dispatch, dispatchList, resumeTask,
    Router.route, mapInsert, mapContains, mapReplace, constTask, taskCapacity, hab, hba]

theorem wake_parked_two2 (a b : Nat) (hab : a ≠ b) :
    dispatch (wakePhase ⟨[(constTask a, 1), (constTask b, 1)], [(a, 0), (b, 1)], []⟩ [a, b])
      = ⟨[(constTask a, 2), (constTask b, 2)], [(a, 0), (b, 1)], []⟩ := by
  have hba : b ≠ a := fun h => hab h.symm
  simp [wakePhase, wakeOne, Router.wake, mapRemove, dispatch, dispatchList, resumeTask,
    Router.route, mapInsert, mapContains, mapReplace, constTask, taskCapacity, hab, hba]

/-- C2: parked a b is the scheduler state with task 0 parked on signal a, task 1 parked on
signal b, and an empty ready queue (first conjunct).  One run-loop iteration observed from
the low-power wait point (waitIter) after only a was set resumes exactly task 0: its resume
counter advances from 1 to 2 while task 1's stays at 1, task 1 remains registered under b,
and the ready queue is drained.  The same single iteration after both a and b were set
resumes both tasks — both counters reach 2, both tasks are re-registered, and the ready
queue is drained — before the loop would reach the wait again; the wake order within the
iteration follows the snapshot's bit order and is not fixed by the claim. -/
theorem C2_park_wake_scenarios (a b : Nat) (ha : a < 32) (hb : b < 32) (hab : a ≠ b) :
    parked a b = ⟨[(constTask a, 1), (constTask b, 1)], [(a, 0), (b, 1)], []⟩ ∧
      (waitIter (parked a b) (Signal.set 0 a)).generators
          = [(constTask a, 2), (constTask b, 1)] ∧
      (b, 1) ∈ (waitIter (parked a b) (Signal.set 0 a)).router ∧
      (waitIter (parked a b) (Signal.set 0 a)).ready = [] ∧
      (waitIter (parked a b) (Signal.set (Signal.set 0 a) b)).generators
          = [(constTask a, 2), (constTask b, 2)] ∧
      (a, 0) ∈ (waitIter (parked a b) (Signal.set (Signal.set 0 a) b)).router ∧
      (b, 1) ∈ (waitIter (parked a b) (Signal.set (Signal.set 0 a) b)).router ∧
      (waitIter (parked a b) (Signal.set (Signal.set 0 a) b)).ready = [] := by
  have hp := parked_eq a b hab
  have hs1 : Signal.set 0 a = 2 ^ a := by
    rw [set_eq_or_pow]
    simp
  have hl1 : signalsList (Signal.set 0 a) = [a] := by
    rw [hs1, signalsList_pow a ha]
  have hw1 : waitIter (parked a b) (Signal.set 0 a)
      = ⟨[(constTask a, 2), (constTask b, 1)], [(b, 1), (a, 0)], []⟩ := by
    unfold waitIter
    rw [show (Signals.read (Signal.set 0 a)).1 = Signal.set 0 a from rfl, hl1, hp]
    exact wake_parked_one a b hab
  have hs2 : Signal.set (Signal.set 0 a) b = 2 ^ a ||| 2 ^ b := by
    rw [set_eq_or_pow, set_eq_or_pow]
    simp
  have hw2 : waitIter (parked a b) (Signal.set (Signal.set 0 a) b)
      = ⟨[(constTask a, 2), (constTask b, 2)], [(b, 1), (a, 0)], []⟩ ∨
      waitIter (parked a b) (Signal.set (Signal.set 0 a) b)
      = ⟨[(constTask a, 2), (constTask b, 2)], [(a, 0), (b, 1)], []⟩ := by
    rcases Nat.lt_or_ge a b with h | h
    · left
      unfold waitIter
      rw [show (Signals.read (Signal.set (Signal.set 0 a) b)).1
          = Signal.set (Signal.set 0 a) b from rfl, hs2, signalsList_or a b h hb, hp]
      exact wake_parked_two a b hab
    · have hba : b < a := by omega
      right
      unfold waitIter
      rw [show (Signals.read (Signal.set (Signal.set 0 a) b)).1
          = Signal.set (Signal.set 0 a) b from rfl, hs2, Nat.or_comm,
        signalsList_or b a hba ha, hp]
      exact wake_parked_two2 a b hab
  refine ⟨hp, ?_, ?_, ?_, ?_, ?_, ?_, ?_⟩
  · rw [hw1]
  · rw [hw1]
    simp
  · rw [hw1]
  · rcases hw2 with h | h <;> rw [h]
  · rcases hw2 with h | h <;> (rw [h]; simp)
  · rcases hw2 with h | h <;> (rw [h]; simp)
  · rcases hw2 with h | h <;> rw [h]

theorem C2_witness :
    parked 0 1 = ⟨[(constTask 0, 1), (constTask 1, 1)], [(0, 0), (1, 1)], []⟩ ∧
      (waitIter (parked 0 1) (Signal.set 0 0)).generators
        = [(constTask 0, 2), (constTask 1, 1)] ∧
      (waitIter (parked 0 1) (Signal.set (Signal.set 0 0) 1)).generators
        = [(constTask 0, 2), (constTask 1, 2)] :=
  ⟨(C2_park_wake_scenarios 0 1 (by decide) (by decide) (by decide)).1,
    (C2_park_wake_scenarios 0 1 (by decide) (by decide) (by decide)).2.1,
    (C2_park_wake_scenarios 0 1 (by decide) (by decide) (by decide)).2.2.2.2.1⟩
